import Mathlib

/-!
Shallow embedding of the MusicFlower loader (`musicflower/loader.py`): the
pitch-scape builder `audio_scape`, the cached file loader `load_file`, the
corpus loader `load_corpus`, and the triangular index scheme used to convert
between scape orderings.  Machine floats are embedded as rationals; the file
system, the pickle cache and the external feature extractors are explicit
parameters of the embedding.
-/

namespace MusicFlower

/-- A pitch-class distribution: one rational per pitch class. -/
abbrev PCD := Fin 12 → ℚ

/-- Python 3 `round` (banker's rounding, half to even) on rationals,
as used by `int(round(...))` in `audio_scape`. -/
def pyRound (q : ℚ) : ℤ :=
  if q - ⌊q⌋ < 1/2 then ⌊q⌋
  else if 1/2 < q - ⌊q⌋ then ⌊q⌋ + 1
  else if ⌊q⌋ % 2 = 0 then ⌊q⌋ else ⌊q⌋ + 1

/-- Start frame of window `idx` (`loader.py` line 47:
`start = int(round(idx / n_time_intervals * n_bins))`). -/
def window_start (n_time_intervals n_bins idx : ℕ) : ℤ :=
  pyRound ((idx : ℚ) / (n_time_intervals : ℚ) * (n_bins : ℚ))

/-- End frame of window `idx` (`loader.py` line 48:
`end = int(round((idx + 1) / n_time_intervals * n_bins))`). -/
def window_end (n_time_intervals n_bins idx : ℕ) : ℤ :=
  pyRound (((idx : ℚ) + 1) / (n_time_intervals : ℚ) * (n_bins : ℚ))

/-- Line 49: `chroma[idx, :] = raw_chroma[:, start:end].sum(axis=1)`:
the sum of the frames of `raw_chroma` with index in `[start, end)`. -/
def windowSum (raw_chroma : ℕ → PCD) (n_time_intervals n_bins idx : ℕ) : PCD :=
  fun d =>
    ((List.range ((window_end n_time_intervals n_bins idx).toNat
        - (window_start n_time_intervals n_bins idx).toNat)).map
      (fun j => raw_chroma ((window_start n_time_intervals n_bins idx).toNat + j) d)).sum

/-- Lines 45–49: the `n_time_intervals` base vectors obtained by summing the
frame-level chroma over the rounded windows. -/
def windowedChroma (raw_chroma : ℕ → PCD) (n_time_intervals n_bins : ℕ) : List PCD :=
  (List.range n_time_intervals).map (windowSum raw_chroma n_time_intervals n_bins)

/-- One step of the bottom-up construction (line 54):
`next_level = current_level[:-1] + chroma[idx + 1:]` (elementwise vector
addition of two equally long numpy arrays). -/
def nextLevel (chroma current : List PCD) (idx : ℕ) : List PCD :=
  List.zipWith (· + ·) current.dropLast (chroma.drop (idx + 1))

/-- The loop of lines 53–56: starting from `current` at loop index `idx`,
produce the list of all levels appended by the remaining `fuel` iterations. -/
def levelsGo (chroma : List PCD) : List PCD → ℕ → ℕ → List (List PCD)
  | _, _, 0 => []
  | current, idx, fuel + 1 =>
    nextLevel chroma current idx ::
      levelsGo chroma (nextLevel chroma current idx) (idx + 1) fuel

/-- The list `scape` of lines 51–56: the base level followed by the levels
produced by `n_time_intervals` loop iterations (the last one is empty). -/
def scapeList (chroma : List PCD) : List (List PCD) :=
  chroma :: levelsGo chroma chroma 0 chroma.length

/-- Lines 57–58: `flattened = np.concatenate(list(reversed(scape)))`
(top-down flattening: coarsest level first). -/
def flattenedScape (chroma : List PCD) : List PCD :=
  (scapeList chroma).reverse.flatten

/-- Entry of the assembled triangular scape at row `r` (0 = finest, length-1
intervals) and position `i` within the row. -/
def scapeEntry (chroma : List PCD) (r i : ℕ) : PCD :=
  ((scapeList chroma).getD r []).getD i 0

instance : BEq (ℕ × ℕ) := instBEqOfDecidableEq

/-- Modelled from the spec: the *top-down* ordering of the triangular entries
(`TMap` of the `triangularmap` library, not part of this repository's
sources): intervals `(s, e)` with `0 ≤ s < e ≤ n`, grouped by row from
coarsest (width `n`) to finest (width `1`), left to right within a row. -/
def topDownList (n : ℕ) : List (ℕ × ℕ) :=
  (List.range n).flatMap (fun d => (List.range (d + 1)).map (fun s => (s, s + (n - d))))

/-- Modelled from the spec: the *start-end* ordering of the same triangular
entries, grouped lexicographically by the `(start, end)` boundary pair. -/
def startEndList (n : ℕ) : List (ℕ × ℕ) :=
  (List.range n).flatMap (fun s => (List.range (n - s)).map (fun j => (s, s + j + 1)))

/-- Modelled from the spec: `TMap.get_reindex_start_end_from_top_down(n)`,
the permutation that gathers a top-down array into start-end order:
position `j` holds the top-down index of the `j`-th start-end entry. -/
def get_reindex_start_end_from_top_down (n : ℕ) : List ℕ :=
  (startEndList n).map (fun x => (topDownList n).indexOf x)

/-- Modelled from the spec: `TMap.get_reindex_top_down_from_start_end(n)`,
the permutation that gathers a start-end array into top-down order. -/
def get_reindex_top_down_from_start_end (n : ℕ) : List ℕ :=
  (topDownList n).map (fun x => (startEndList n).indexOf x)

/-- Numpy fancy indexing `arr[p, ...]` for an array given as a function. -/
def applyReindex {α : Type} (p : List ℕ) (a : ℕ → α) : ℕ → α :=
  fun j => a (p.getD j 0)

/-- Numpy fancy indexing `arr[p, ...]` for an array given as a list. -/
def reindexList (p : List ℕ) (l : List PCD) : List PCD :=
  p.map (fun i => l.getD i 0)

/-- Modelled from the spec: `TMap.n_from_size1d(k)`, the recovery of the
resolution `n` from the linear size `k = n (n + 1) / 2`. -/
def n_from_size1d (k : ℕ) : ℕ := Nat.sqrt (2 * k)

/-- The triangular number `k = n (n + 1) / 2`. -/
def tri (n : ℕ) : ℕ := n * (n + 1) / 2

/-- Line 63: `flattened /= flattened.sum(axis=1, keepdims=True)`: divide each
entry by its own sum across the 12 pitch-class dimensions. -/
def normaliseRow (v : PCD) : PCD :=
  fun d => v d / (∑ e : Fin 12, v e)

/-- `audio_scape` (lines 40–64).  The chroma extraction `get_chroma` (an
external librosa pipeline) is represented by the frame array `raw_chroma`
with `n_bins` frames.  Note that the body never uses its `normalise`
argument: line 63 divides unconditionally. -/
def audio_scape (n_time_intervals : ℕ) (raw_chroma : ℕ → PCD) (n_bins : ℕ)
    (normalise top_down : Bool) : List PCD :=
  let chroma := windowedChroma raw_chroma n_time_intervals n_bins
  let flattened := (scapeList chroma).reverse.flatten
  let flattened2 :=
    if top_down then flattened
    else reindexList (get_reindex_start_end_from_top_down (n_from_size1d flattened.length))
      flattened
  flattened2.map normaliseRow

/-- Closed form for row `r` of the triangular scape: position `i` holds the
sum of the base vectors `i, …, i + r`. -/
def rowSE (chroma : List PCD) (r : ℕ) : List PCD :=
  (List.range (chroma.length - r)).map (fun i => ((chroma.drop i).take (r + 1)).sum)

/-- A concrete base-vector sequence with a non-zero middle vector. -/
def exChroma3 : List PCD := [fun _ => 0, fun _ => 1, fun _ => 0]

/-- A concrete two-element base-vector sequence. -/
def exChroma2 : List PCD := [fun _ => 2, fun _ => 3]

/-- A concrete frame-level chroma array: every frame is the constant vector 2
(so entries are not L1-normalised). -/
def exRaw : ℕ → PCD := fun _ => (fun _ => 2)

/-- The parameter mapping stored with a cache entry: the `normalise` flag
(always present after the default merge of line 92) together with the
remaining keyword arguments, modelled as an association list. -/
structure Params where
  normalise : Bool
  rest : List (String × Int)
deriving DecidableEq

/-- The keyword arguments a caller passes to `load_file`: `normalise` may be
absent (`none`), in which case line 92 fills in the default `True`. -/
structure KwArgs where
  normaliseArg : Option Bool
  rest : List (String × Int)

/-- Line 92: `kwargs = {**dict(normalise=True), **kwargs}`. -/
def mergeDefaults (kw : KwArgs) : Params :=
  ⟨kw.normaliseArg.getD true, kw.rest⟩

/-- The errors raised by `load_file`, in the taxonomy of the spec (each
corresponds to one `raise` in lines 94–121). -/
inductive LoadError where
  | invalidResolution : LoadError
  | invalidInput : LoadError
  | fileNotFound : LoadError
  | permissionDenied : LoadError
  | notAFile : LoadError
  | cacheParameterMismatch : Params → Params → LoadError
deriving DecidableEq

/-- `get_cache_file_path` (lines 22–37) as called by `load_file`
(`remove_extension` left at its default `False`): append `"_n<n>.pickle"`. -/
def get_cache_file_path (file_path : String) (n : Int) : String :=
  file_path ++ "_n" ++ toString n ++ ".pickle"

/-- The environment a `load_file` call runs in: the file-system predicates it
queries, the pickle cache contents, the two feature-extraction routes
(`audio_scape` on a concrete file, `pitchscapes.reader.sample_scape`), and
the `TMap`-based reordering of line 136, all as deterministic functions.
The scape payload type `S` is abstract. -/
structure Env (S : Type) where
  isfile : String → Bool
  readable : String → Bool
  cache : String → Option (S × Params)
  computeAudio : Int → String → Params → S
  computeSymbolic : Int → String → Params → S
  reorderTopDown : S → S

/-- Writing a pickle cache file (line 132–133). -/
def updateCache {S : Type} (c : String → Option (S × Params)) (key : String)
    (v : S × Params) : String → Option (S × Params) :=
  fun s => if s = key then some v else c s

/-- `file_path.endswith(audio_ext)` for a tuple of extensions. -/
def endswithAny (path : String) (exts : List String) : Bool :=
  exts.any (fun e => path.endsWith e)

/-- Line 123 routing: `audio or (audio is None and file_path.endswith(audio_ext))`
selects the audio path, otherwise the symbolic path (lines 123–130). -/
def routeCompute {S : Type} (env : Env S) (n : Int) (path : String)
    (audioFlag : Option Bool) (audio_ext : List String) (kwargs : Params) : S :=
  match audioFlag with
  | some b => if b then env.computeAudio n path kwargs else env.computeSymbolic n path kwargs
  | none =>
    if endswithAny path audio_ext then env.computeAudio n path kwargs
    else env.computeSymbolic n path kwargs

/-- Line 135–138: reorder to top-down if requested. -/
def finalReorder {S : Type} (env : Env S) (top_down : Bool) (pdc : S) : S :=
  if top_down then env.reorderTopDown pdc else pdc

/-- `load_file` (lines 67–138).  Returns the scape together with the cache
state after the call, or the error raised.  The branch structure follows the
source: merged kwargs (line 92), argument checks (lines 94–103), the cache
branch (lines 106–121, where `cache_file_exists` is the cache lookup being
`some`), the compute-and-store branch (lines 122–133), and the final
reordering (lines 135–138). -/
def load_file {S : Type} (env : Env S) (file_path : Option String) (n : Int)
    (use_cache recompute_cache : Bool) (audioFlag : Option Bool)
    (audio_ext : List String) (top_down : Bool) (kw : KwArgs) :
    Except LoadError (S × (String → Option (S × Params))) :=
  let kwargs := mergeDefaults kw
  if n < 1 then .error .invalidResolution
  else
    match file_path with
    | none => .error .invalidInput
    | some path =>
      if env.isfile path = false then .error .fileNotFound
      else if env.readable path = false then .error .permissionDenied
      else if env.isfile path = false then .error .notAFile
      else
        let cache_file_name := get_cache_file_path path n
        if use_cache && !recompute_cache then
          match env.cache cache_file_name with
          | some (pdc, cached_kwargs) =>
            if cached_kwargs = kwargs then .ok (finalReorder env top_down pdc, env.cache)
            else .error (.cacheParameterMismatch kwargs cached_kwargs)
          | none =>
            let pdc := routeCompute env n path audioFlag audio_ext kwargs
            .ok (finalReorder env top_down pdc,
              updateCache env.cache cache_file_name (pdc, kwargs))
        else
          let pdc := routeCompute env n path audioFlag audio_ext kwargs
          let cache' :=
            if use_cache then updateCache env.cache cache_file_name (pdc, kwargs)
            else env.cache
          .ok (finalReorder env top_down pdc, cache')

/-- A concrete two-file corpus. -/
def exPaths : List String := ["a", "bb"]

/-- The tagged results of `exPaths` under the length loader, delivered in
swapped (completion) order. -/
def exDelivered : List (String × ℕ) := [("bb", 2), ("a", 1)]

/-- A concrete environment: every path is a readable file, the cache is
empty, extraction returns constants, reordering adds one. -/
def exEnvFresh : Env ℕ where
  isfile := fun _ => true
  readable := fun _ => true
  cache := fun _ => none
  computeAudio := fun _ _ _ => 7
  computeSymbolic := fun _ _ _ => 8
  reorderTopDown := fun s => s + 1

/-- A concrete environment in which no path is a file. -/
def exEnvMissing : Env ℕ where
  isfile := fun _ => false
  readable := fun _ => true
  cache := fun _ => none
  computeAudio := fun _ _ _ => 7
  computeSymbolic := fun _ _ _ => 8
  reorderTopDown := fun s => s + 1

/-- A concrete environment in which every path exists but none is readable. -/
def exEnvUnreadable : Env ℕ where
  isfile := fun _ => true
  readable := fun _ => false
  cache := fun _ => none
  computeAudio := fun _ _ _ => 7
  computeSymbolic := fun _ _ _ => 8
  reorderTopDown := fun s => s + 1

/-- A concrete environment whose cache holds an entry with `normalise=False`,
different from the default-merged parameters of a fresh call. -/
def exEnvMismatch : Env ℕ where
  isfile := fun _ => true
  readable := fun _ => true
  cache := fun _ => some (5, ⟨false, []⟩)
  computeAudio := fun _ _ _ => 7
  computeSymbolic := fun _ _ _ => 8
  reorderTopDown := fun s => s + 1

/-- Tagging each file path with its loaded scape, as both corpus modes do
(`(file_name, scape)` pairs): the per-file loader is the deterministic
function `f`. -/
def tagScapes {α : Type} (f : String → α) (paths : List String) : List (String × α) :=
  paths.map (fun p => (p, f p))

/-- The comparison used by `sorted(scape_list, key=lambda x: sort_func(x[0]))`
with integer-valued sort keys. -/
def keyLE {α : Type} (sort_func : String → Int) (a b : String × α) : Prop :=
  sort_func a.1 ≤ sort_func b.1

instance {α : Type} (sort_func : String → Int) :
    DecidableRel (keyLE (α := α) sort_func) :=
  fun a b => inferInstanceAs (Decidable (sort_func a.1 ≤ sort_func b.1))

/-- Python's `sorted` is a stable ascending sort by key; `List.insertionSort`
with the key comparison is such a sort. -/
def pySorted {α : Type} (sort_func : String → Int) (l : List (String × α)) :
    List (String × α) :=
  l.insertionSort (keyLE sort_func)

/-- `load_corpus` with `parallel=False` (lines 169–179): load the files in
order, tag, sort by `sort_func` of the path, and return the stacked scapes
together with the ordered path list. -/
def load_corpus_seq {α : Type} (f : String → α) (file_paths : List String)
    (sort_func : String → Int) : List α × List String :=
  let sorted_scape_list := pySorted sort_func (tagScapes f file_paths)
  (sorted_scape_list.map Prod.snd, sorted_scape_list.map Prod.fst)

/-- Modelled from the spec: `load_corpus` with `parallel=True` (lines
163–168).  The worker pool (`Pool`/`istarmap`, not part of the sources under
`src/`) delivers the tagged per-file results in an order that is not
guaranteed to match submission order; `delivered` is the delivered list,
constrained in the theorems to be a permutation of the tagged tasks.  The
results are then sorted by `sort_func` of the path, as in line 175. -/
def load_corpus_par {α : Type} (delivered : List (String × α))
    (sort_func : String → Int) : List α × List String :=
  let sorted_scape_list := pySorted sort_func delivered
  (sorted_scape_list.map Prod.snd, sorted_scape_list.map Prod.fst)

/-! ### Scape-builder lemmas -/

theorem rowSE_zero (chroma : List PCD) : rowSE chroma 0 = chroma := by
  apply List.ext_getElem
  · simp [rowSE]
  · intro i h1 h2
    simp only [rowSE, List.getElem_map, List.getElem_range]
    rw [List.sum_take_succ _ 0 (by simpa using h2)]
    simp

theorem nextLevel_rowSE (chroma : List PCD) (r : ℕ) :
    nextLevel chroma (rowSE chroma r) r = rowSE chroma (r + 1) := by
  apply List.ext_getElem
  · simp [nextLevel, rowSE]
    omega
  · intro i h1 h2
    have hlen : i + (r + 1) < chroma.length := by
      simp [rowSE] at h2
      omega
    simp only [nextLevel, List.getElem_zipWith, List.getElem_dropLast, List.getElem_drop,
      rowSE, List.getElem_map, List.getElem_range]
    rw [List.sum_take_succ _ (r + 1) (by simp; omega)]
    congr 1
    rw [List.getElem_drop]
    congr 1
    omega

theorem levelsGo_rowSE (chroma : List PCD) :
    ∀ (fuel r : ℕ), levelsGo chroma (rowSE chroma r) r fuel
      = (List.range' (r + 1) fuel).map (rowSE chroma)
  | 0, r => by simp [levelsGo]
  | fuel + 1, r => by
    rw [levelsGo, nextLevel_rowSE, levelsGo_rowSE chroma fuel (r + 1), List.range'_succ]
    simp

theorem scapeList_eq (chroma : List PCD) :
    scapeList chroma = (List.range (chroma.length + 1)).map (rowSE chroma) := by
  have h1 := levelsGo_rowSE chroma chroma.length 0
  rw [rowSE_zero] at h1
  rw [scapeList, h1, List.range_eq_range', List.range'_succ, List.map_cons, rowSE_zero]

theorem scapeEntry_eq (chroma : List PCD) (r i : ℕ) (hr : r ≤ chroma.length)
    (hi : i < chroma.length - r) :
    scapeEntry chroma r i = ((chroma.drop i).take (r + 1)).sum := by
  have houter : (scapeList chroma).getD r [] = rowSE chroma r := by
    rw [scapeList_eq, List.getD_eq_getElem _ _ (by simp; omega)]
    simp
  rw [scapeEntry, houter, List.getD_eq_getElem _ _ (by simp [rowSE]; omega)]
  simp [rowSE]

theorem sum_apply_list (l : List PCD) (d : Fin 12) :
    l.sum d = (l.map (fun v => v d)).sum := by
  induction l with
  | nil => rfl
  | cons x xs ih => simp [ih]

/-- Claim C2: for every resolution `n ≥ 1` and every sequence of `n` base
12-dimensional vectors, the single coarsest entry of the scape assembled by
the scape builder (the first entry of the top-down flattening, covering the
whole piece) equals the elementwise sum of all `n` base vectors. -/
theorem coarsest_entry_is_sum (chroma : List PCD) (h : chroma ≠ []) :
    (flattenedScape chroma).head? = some (fun d => (chroma.map (fun v => v d)).sum) := by
  obtain ⟨m, hm⟩ : ∃ m, chroma.length = m + 1 := by
    cases chroma with
    | nil => exact absurd rfl h
    | cons x xs => exact ⟨xs.length, by simp⟩
  have hrowtop : rowSE chroma (m + 1) = [] := by
    simp [rowSE, hm]
  have hrowm : rowSE chroma m = [chroma.sum] := by
    have h1 : chroma.length - m = 1 := by omega
    rw [rowSE, h1, show List.range 1 = [0] from rfl]
    simp only [List.map_cons, List.map_nil, List.drop_zero]
    rw [List.take_of_length_le (by omega)]
  have hsum : (fun d => (chroma.map (fun v => v d)).sum) = chroma.sum := by
    funext d
    exact (sum_apply_list chroma d).symm
  rw [hsum, flattenedScape, scapeList_eq, hm]
  rw [List.range_succ, List.map_append, List.reverse_append, List.flatten_append]
  rw [List.range_succ, List.map_append, List.reverse_append, List.flatten_append]
  simp [hrowtop, hrowm]

/-- Witness for claim C2 at a concrete two-vector input. -/
theorem coarsest_entry_is_sum_witness :
    exChroma2 ≠ [] ∧
      (flattenedScape exChroma2).head? = some (fun d => (exChroma2.map (fun v => v d)).sum) :=
  ⟨by decide, coarsest_entry_is_sum exChroma2 (by decide)⟩

/-- Claim C3 counterexample: in the scape built from the three base vectors
`[0, 1, 0]` (constant over pitch classes), the entry at row 2, position 0 is
`1`, while the sum of its two children at row 1 is `2`: the builder adds a
single base vector per level, it does not add the two overlapping children. -/
theorem child_sum_counterexample :
    ¬ (scapeEntry exChroma3 2 0 = scapeEntry exChroma3 1 0 + scapeEntry exChroma3 1 1) := by
  intro h
  rw [scapeEntry_eq exChroma3 2 0 (by simp [exChroma3]) (by simp [exChroma3]),
    scapeEntry_eq exChroma3 1 0 (by simp [exChroma3]) (by simp [exChroma3]),
    scapeEntry_eq exChroma3 1 1 (by simp [exChroma3]) (by simp [exChroma3])] at h
  have h0 := congrFun h 0
  simp [exChroma3] at h0

/-- Claim C3 (amended): in every scape built by the scape builder, the entry
at row `r ≥ 1`, position `i` equals the entry at row `r − 1`, position `i`
plus the single base vector at index `i + r`; equivalently it equals the
elementwise sum of its base descendants `i, …, i + r`. -/
theorem entry_is_sum_of_descendants (chroma : List PCD) (r i : ℕ) (hr : 1 ≤ r)
    (hir : i + r < chroma.length) :
    scapeEntry chroma r i = scapeEntry chroma (r - 1) i + chroma.getD (i + r) 0
    ∧ scapeEntry chroma r i = ((chroma.drop i).take (r + 1)).sum := by
  have h1 : scapeEntry chroma r i = ((chroma.drop i).take (r + 1)).sum :=
    scapeEntry_eq chroma r i (by omega) (by omega)
  have h2 : scapeEntry chroma (r - 1) i = ((chroma.drop i).take r).sum := by
    have h' := scapeEntry_eq chroma (r - 1) i (by omega) (by omega)
    rwa [show r - 1 + 1 = r by omega] at h'
  refine ⟨?_, h1⟩
  rw [h1, h2, List.getD_eq_getElem _ _ (by omega)]
  rw [List.sum_take_succ _ r (by simp; omega)]
  congr 1
  simp

/-- Witness for the amended claim C3 at the concrete input `[0, 1, 0]`. -/
theorem entry_is_sum_of_descendants_witness :
    scapeEntry exChroma3 2 0 = scapeEntry exChroma3 1 0 + exChroma3.getD 2 0
    ∧ scapeEntry exChroma3 2 0 = ((exChroma3.drop 0).take 3).sum :=
  entry_is_sum_of_descendants exChroma3 2 0 (by decide) (by decide)

/-- Claim C4 (code bug): `audio_scape` never uses its `normalise` argument;
line 63 divides every entry by its row sum unconditionally.  At resolution 1
on a one-frame chroma of constant value 2, the call with `normalise = False`
returns the normalised entry `1/12` instead of the raw sum `2`.  The default
merge of `load_file` (line 92) does set `normalise = True` when absent. -/
theorem normalise_flag_ignored :
    audio_scape 1 exRaw 1 false true = [fun _ => (1/12 : ℚ)]
    ∧ audio_scape 1 exRaw 1 false true ≠ [fun _ => (2 : ℚ)]
    ∧ ∀ kw : KwArgs, kw.normaliseArg = none → (mergeDefaults kw).normalise = true := by
  have hs : windowSum exRaw 1 1 0 = fun _ => (2 : ℚ) := by
    funext d
    have h1 : window_start 1 1 0 = 0 := by norm_num [window_start, pyRound]
    have h2 : window_end 1 1 0 = 1 := by norm_num [window_end, pyRound]
    simp [windowSum, h1, h2, exRaw]
  have hw : windowedChroma exRaw 1 1 = [fun _ => (2 : ℚ)] := by
    rw [windowedChroma, show List.range 1 = [0] from rfl]
    simp [hs]
  have hnorm : normaliseRow (fun _ => (2 : ℚ)) = fun _ => (1/12 : ℚ) := by
    funext d
    simp [normaliseRow, Finset.sum_const, Finset.card_univ]
    norm_num
  have hmain : audio_scape 1 exRaw 1 false true = [fun _ => (1/12 : ℚ)] := by
    simp only [audio_scape, hw, if_pos]
    show ((scapeList [fun _ => (2 : ℚ)]).reverse.flatten).map normaliseRow = _
    have hf : (scapeList [fun _ => (2 : ℚ)]).reverse.flatten = [fun _ => (2 : ℚ)] := rfl
    rw [hf]
    simp [hnorm]
  refine ⟨hmain, ?_, ?_⟩
  · rw [hmain]
    intro hcontra
    have h0 := congrFun (List.head_eq_of_cons_eq hcontra) 0
    norm_num at h0
  · intro kw hkw
    simp [mergeDefaults, hkw]

/-! ### Rounding and window lemmas -/

theorem pyRound_ge_floor (q : ℚ) : ⌊q⌋ ≤ pyRound q := by
  unfold pyRound
  split
  · exact le_refl _
  · split
    · omega
    · split
      · exact le_refl _
      · omega

theorem pyRound_le_floor_add_one (q : ℚ) : pyRound q ≤ ⌊q⌋ + 1 := by
  unfold pyRound
  split
  · omega
  · split
    · omega
    · split
      · omega
      · omega

theorem pyRound_intCast (m : ℤ) : pyRound (m : ℚ) = m := by
  unfold pyRound
  rw [Int.floor_intCast]
  norm_num

theorem pyRound_mono {q q' : ℚ} (h : q ≤ q') : pyRound q ≤ pyRound q' := by
  have hf : ⌊q⌋ ≤ ⌊q'⌋ := Int.floor_mono h
  rcases eq_or_lt_of_le hf with heq | hlt
  · have hr : q - (⌊q⌋ : ℚ) ≤ q' - (⌊q'⌋ : ℚ) := by
      rw [← heq]
      linarith
    unfold pyRound
    rw [← heq]
    split_ifs <;> first | omega | linarith
  · calc pyRound q ≤ ⌊q⌋ + 1 := pyRound_le_floor_add_one q
      _ ≤ ⌊q'⌋ := by omega
      _ ≤ pyRound q' := pyRound_ge_floor q'

theorem exists_unique_window {s : ℕ → ℤ} (mono : ∀ i j, i ≤ j → s i ≤ s j) (n : ℕ)
    (f : ℤ) (h0 : s 0 ≤ f) (hn : f < s n) :
    ∃! i, i < n ∧ s i ≤ f ∧ f < s (i + 1) := by
  induction n with
  | zero => omega
  | succ n ih =>
    rcases le_or_lt (s n) f with hge | hlt
    · refine ⟨n, ⟨Nat.lt_succ_self n, hge, hn⟩, ?_⟩
      rintro j ⟨hj, hj1, hj2⟩
      by_contra hne
      have hjn : j + 1 ≤ n := by omega
      have hs : s (j + 1) ≤ s n := mono _ _ hjn
      omega
    · obtain ⟨i, ⟨hi, hi1, hi2⟩, huniq⟩ := ih hlt
      refine ⟨i, ⟨by omega, hi1, hi2⟩, ?_⟩
      rintro j ⟨hj, hj1, hj2⟩
      rcases Nat.lt_or_ge j n with hjn | hjn
      · exact huniq j ⟨hjn, hj1, hj2⟩
      · have hj' : j = n := by omega
        subst hj'
        omega

theorem window_start_mono (n_time_intervals n_bins : ℕ) :
    ∀ i j, i ≤ j → window_start n_time_intervals n_bins i
      ≤ window_start n_time_intervals n_bins j := by
  intro i j hij
  apply pyRound_mono
  have hpos : (0 : ℚ) ≤ (n_time_intervals : ℚ) := by positivity
  have hb : (0 : ℚ) ≤ (n_bins : ℚ) := by positivity
  have hcast : (i : ℚ) ≤ (j : ℚ) := by exact_mod_cast hij
  gcongr

/-- Claim C9: the audio windowing covers the frames exactly: the end of
window `i` is the start of window `i + 1`, the first window starts at frame
0, the final window ends at frame `n_bins`, and every frame lies in exactly
one window. -/
theorem window_boundaries (n_time_intervals n_bins : ℕ) (hn : 1 ≤ n_time_intervals) :
    (∀ idx, window_end n_time_intervals n_bins idx
        = window_start n_time_intervals n_bins (idx + 1))
    ∧ window_start n_time_intervals n_bins 0 = 0
    ∧ window_end n_time_intervals n_bins (n_time_intervals - 1) = (n_bins : ℤ)
    ∧ ∀ f : ℕ, f < n_bins → ∃! idx, idx < n_time_intervals
        ∧ window_start n_time_intervals n_bins idx ≤ (f : ℤ)
        ∧ (f : ℤ) < window_end n_time_intervals n_bins idx := by
  have hpos : (0 : ℚ) < (n_time_intervals : ℚ) := by exact_mod_cast hn
  have hconsec : ∀ idx, window_end n_time_intervals n_bins idx
      = window_start n_time_intervals n_bins (idx + 1) := by
    intro idx
    rw [window_end, window_start]
    congr 1
    push_cast
    ring
  have hzero : window_start n_time_intervals n_bins 0 = 0 := by
    rw [window_start, show ((0 : ℕ) : ℚ) / (n_time_intervals : ℚ) * (n_bins : ℚ)
      = ((0 : ℤ) : ℚ) by push_cast; ring, pyRound_intCast]
  have hne : (n_time_intervals : ℚ) ≠ 0 := ne_of_gt hpos
  have hfull : window_start n_time_intervals n_bins n_time_intervals = (n_bins : ℤ) := by
    rw [window_start, show ((n_time_intervals : ℕ) : ℚ) / (n_time_intervals : ℚ)
      * (n_bins : ℚ) = ((n_bins : ℤ) : ℚ) by rw [div_self hne, one_mul]; push_cast; ring,
      pyRound_intCast]
  refine ⟨hconsec, hzero, ?_, ?_⟩
  · rw [hconsec, show n_time_intervals - 1 + 1 = n_time_intervals by omega, hfull]
  · intro f hf
    have hmono := window_start_mono n_time_intervals n_bins
    have h0 : window_start n_time_intervals n_bins 0 ≤ (f : ℤ) := by
      rw [hzero]
      positivity
    have hend : (f : ℤ) < window_start n_time_intervals n_bins n_time_intervals := by
      rw [hfull]
      exact_mod_cast hf
    have huni := exists_unique_window hmono n_time_intervals (f : ℤ) h0 hend
    refine (existsUnique_congr ?_).mpr huni
    intro i
    rw [hconsec i]

/-- Witness for claim C9: at resolution 3 on 4 frames the conjuncts hold. -/
theorem window_boundaries_witness :
    (∀ idx, window_end 3 4 idx = window_start 3 4 (idx + 1))
    ∧ window_start 3 4 0 = 0
    ∧ window_end 3 4 (3 - 1) = (4 : ℤ)
    ∧ ∀ f : ℕ, f < 4 → ∃! idx, idx < 3
        ∧ window_start 3 4 idx ≤ (f : ℤ) ∧ (f : ℤ) < window_end 3 4 idx :=
  window_boundaries 3 4 (by norm_num)

/-! ### Triangular index scheme -/

theorem mem_topDownList {n : ℕ} {x : ℕ × ℕ} :
    x ∈ topDownList n ↔ x.1 < x.2 ∧ x.2 ≤ n := by
  obtain ⟨a, b⟩ := x
  simp only [topDownList, List.mem_flatMap, List.mem_range, List.mem_map]
  constructor
  · rintro ⟨d, hd, s, hs, heq⟩
    simp only [Prod.mk.injEq] at heq
    obtain ⟨rfl, rfl⟩ := heq
    constructor <;> omega
  · rintro ⟨h1, h2⟩
    refine ⟨n - (b - a), by omega, a, by omega, ?_⟩
    simp only [Prod.mk.injEq, true_and]
    omega

theorem mem_startEndList {n : ℕ} {x : ℕ × ℕ} :
    x ∈ startEndList n ↔ x.1 < x.2 ∧ x.2 ≤ n := by
  obtain ⟨a, b⟩ := x
  simp only [startEndList, List.mem_flatMap, List.mem_range, List.mem_map]
  constructor
  · rintro ⟨s, hs, j, hj, heq⟩
    simp only [Prod.mk.injEq] at heq
    obtain ⟨rfl, rfl⟩ := heq
    constructor <;> omega
  · rintro ⟨h1, h2⟩
    refine ⟨a, by omega, b - a - 1, by omega, ?_⟩
    simp only [Prod.mk.injEq, true_and]
    omega

theorem nodup_topDownList (n : ℕ) : (topDownList n).Nodup := by
  rw [topDownList, List.nodup_flatMap]
  constructor
  · intro d _
    apply List.Nodup.map _ (List.nodup_range _)
    intro s₁ s₂ h
    simpa using congrArg Prod.fst h
  · rw [List.pairwise_iff_getElem]
    intro i j hi hj hij x hx₁ hx₂
    simp only [List.length_range] at hi hj
    simp only [List.getElem_range, List.mem_map, List.mem_range] at hx₁ hx₂
    obtain ⟨s₁, hs₁, rfl⟩ := hx₁
    obtain ⟨s₂, hs₂, heq⟩ := hx₂
    simp only [Prod.mk.injEq] at heq
    omega

theorem nodup_startEndList (n : ℕ) : (startEndList n).Nodup := by
  rw [startEndList, List.nodup_flatMap]
  constructor
  · intro s _
    apply List.Nodup.map _ (List.nodup_range _)
    intro j₁ j₂ h
    simpa using congrArg Prod.snd h
  · rw [List.pairwise_iff_getElem]
    intro i j hi hj hij x hx₁ hx₂
    simp only [List.length_range] at hi hj
    simp only [List.getElem_range, List.mem_map, List.mem_range] at hx₁ hx₂
    obtain ⟨j₁, hj₁, rfl⟩ := hx₁
    obtain ⟨j₂, hj₂, heq⟩ := hx₂
    simp only [Prod.mk.injEq] at heq
    omega

theorem perm_startEnd_topDown (n : ℕ) : List.Perm (startEndList n) (topDownList n) :=
  (List.perm_ext_iff_of_nodup (nodup_startEndList n) (nodup_topDownList n)).mpr
    (fun x => by rw [mem_startEndList, mem_topDownList])

theorem tri_succ (n : ℕ) : tri (n + 1) = tri n + (n + 1) := by
  obtain ⟨r, hr⟩ := Nat.even_mul_succ_self n
  have h2 : (n + 1) * (n + 1 + 1) = n * (n + 1) + 2 * (n + 1) := by ring
  unfold tri
  rw [h2, hr]
  omega

theorem sum_range_add_one (n : ℕ) : ((List.range n).map (fun d => d + 1)).sum = tri n := by
  induction n with
  | zero => rfl
  | succ n ih =>
    rw [List.range_succ, List.map_append, List.sum_append, ih, tri_succ]
    simp

theorem length_topDownList (n : ℕ) : (topDownList n).length = tri n := by
  rw [topDownList, List.length_flatMap]
  simp only [Function.comp_def, List.length_map, List.length_range]
  exact sum_range_add_one n

theorem length_startEndList (n : ℕ) : (startEndList n).length = tri n :=
  (perm_startEnd_topDown n).length_eq.trans (length_topDownList n)

theorem reindex_comp_td (n j : ℕ) (hj : j < tri n) :
    (get_reindex_start_end_from_top_down n).getD
      ((get_reindex_top_down_from_start_end n).getD j 0) 0 = j := by
  have hlse := length_startEndList n
  have hltd := length_topDownList n
  have hj1 : j < (topDownList n).length := by omega
  have hxmem : (topDownList n)[j] ∈ startEndList n := by
    rw [mem_startEndList, ← mem_topDownList]
    exact List.getElem_mem hj1
  have hidx : List.indexOf (topDownList n)[j] (startEndList n) < (startEndList n).length :=
    List.indexOf_lt_length.mpr hxmem
  have hinner : (get_reindex_top_down_from_start_end n).getD j 0
      = List.indexOf (topDownList n)[j] (startEndList n) := by
    rw [get_reindex_top_down_from_start_end,
      List.getD_eq_getElem _ _ (by simpa using hj1)]
    simp
  rw [hinner, get_reindex_start_end_from_top_down,
    List.getD_eq_getElem _ _ (by simpa using hidx)]
  simp only [List.getElem_map]
  rw [List.getElem_indexOf hidx]
  exact List.indexOf_getElem (nodup_topDownList n) j hj1

theorem reindex_comp_se (n j : ℕ) (hj : j < tri n) :
    (get_reindex_top_down_from_start_end n).getD
      ((get_reindex_start_end_from_top_down n).getD j 0) 0 = j := by
  have hlse := length_startEndList n
  have hltd := length_topDownList n
  have hj1 : j < (startEndList n).length := by omega
  have hxmem : (startEndList n)[j] ∈ topDownList n := by
    rw [mem_topDownList, ← mem_startEndList]
    exact List.getElem_mem hj1
  have hidx : List.indexOf (startEndList n)[j] (topDownList n) < (topDownList n).length :=
    List.indexOf_lt_length.mpr hxmem
  have hinner : (get_reindex_start_end_from_top_down n).getD j 0
      = List.indexOf (startEndList n)[j] (topDownList n) := by
    rw [get_reindex_start_end_from_top_down,
      List.getD_eq_getElem _ _ (by simpa using hj1)]
    simp
  rw [hinner, get_reindex_top_down_from_start_end,
    List.getD_eq_getElem _ _ (by simpa using hidx)]
  simp only [List.getElem_map]
  rw [List.getElem_indexOf hidx]
  exact List.indexOf_getElem (nodup_startEndList n) j hj1

/-- Claim C5: for every `n ≥ 1` the permutation reindexing a
start-end-ordered array into top-down order and the permutation for the
reverse direction are mutually inverse: applying one and then the other
restores any array of length `k = n (n + 1) / 2` entrywise; and for `n = 1`
both permutations are the identity on length-1 arrays. -/
theorem reindex_permutations_inverse (n : ℕ) (hn : 1 ≤ n) :
    (∀ (α : Type) (a : ℕ → α) (j : ℕ), j < tri n →
      applyReindex (get_reindex_start_end_from_top_down n)
        (applyReindex (get_reindex_top_down_from_start_end n) a) j = a j
      ∧ applyReindex (get_reindex_top_down_from_start_end n)
        (applyReindex (get_reindex_start_end_from_top_down n) a) j = a j)
    ∧ get_reindex_start_end_from_top_down 1 = [0]
    ∧ get_reindex_top_down_from_start_end 1 = [0] := by
  refine ⟨?_, by decide, by decide⟩
  intro α a j hj
  constructor
  · show a ((get_reindex_top_down_from_start_end n).getD
      ((get_reindex_start_end_from_top_down n).getD j 0) 0) = a j
    rw [reindex_comp_se n j hj]
  · show a ((get_reindex_start_end_from_top_down n).getD
      ((get_reindex_top_down_from_start_end n).getD j 0) 0) = a j
    rw [reindex_comp_td n j hj]

/-- Witness for claim C5 at `n = 2`, the identity payload and index 1. -/
theorem reindex_permutations_inverse_witness :
    applyReindex (get_reindex_start_end_from_top_down 2)
      (applyReindex (get_reindex_top_down_from_start_end 2) (fun j => j)) 1 = 1
    ∧ applyReindex (get_reindex_top_down_from_start_end 2)
      (applyReindex (get_reindex_start_end_from_top_down 2) (fun j => j)) 1 = 1 :=
  (reindex_permutations_inverse 2 (by norm_num)).1 ℕ (fun j => j) 1 (by decide)

/-! ### Cached file loader -/

/-- Claim C6: `load_file` validates fail-fast, before any cache access or
feature extraction: `n < 1` yields the resolution error regardless of the
other arguments (even a missing path); for `n ≥ 1` a null path, a
nonexistent file, and an existing but unreadable file yield the null-input,
file-not-found and permission errors respectively.  Each case holds
uniformly in the cache contents and extraction functions of the
environment, so neither is consulted. -/
theorem load_file_fail_fast {S : Type} :
    (∀ (env : Env S) fp n uc rc af ext td kw, n < 1 →
      load_file env fp n uc rc af ext td kw = .error .invalidResolution)
    ∧ (∀ (env : Env S) n uc rc af ext td kw, 1 ≤ n →
      load_file env none n uc rc af ext td kw = .error .invalidInput)
    ∧ (∀ (env : Env S) p n uc rc af ext td kw, 1 ≤ n → env.isfile p = false →
      load_file env (some p) n uc rc af ext td kw = .error .fileNotFound)
    ∧ (∀ (env : Env S) p n uc rc af ext td kw, 1 ≤ n → env.isfile p = true →
      env.readable p = false →
      load_file env (some p) n uc rc af ext td kw = .error .permissionDenied) := by
  refine ⟨?_, ?_, ?_, ?_⟩
  · intro env fp n uc rc af ext td kw hn
    simp [load_file, hn]
  · intro env n uc rc af ext td kw hn
    have hn' : ¬ (n < 1) := by omega
    simp [load_file, hn']
  · intro env p n uc rc af ext td kw hn hf
    have hn' : ¬ (n < 1) := by omega
    simp [load_file, hn', hf]
  · intro env p n uc rc af ext td kw hn hf hr
    have hn' : ¬ (n < 1) := by omega
    simp [load_file, hn', hf, hr]

/-- Witness for claim C6: the four failure modes at concrete inputs. -/
theorem load_file_fail_fast_witness :
    load_file exEnvFresh (some "a") 0 true false (some true) [] true ⟨none, []⟩
      = .error .invalidResolution
    ∧ load_file exEnvFresh none 2 true false (some true) [] true ⟨none, []⟩
      = .error .invalidInput
    ∧ load_file exEnvMissing (some "b") 2 true false (some true) [] true ⟨none, []⟩
      = .error .fileNotFound
    ∧ load_file exEnvUnreadable (some "c") 2 true false (some true) [] true ⟨none, []⟩
      = .error .permissionDenied :=
  ⟨load_file_fail_fast.1 exEnvFresh (some "a") 0 true false (some true) [] true ⟨none, []⟩
      (by norm_num),
   load_file_fail_fast.2.1 exEnvFresh 2 true false (some true) [] true ⟨none, []⟩
      (by norm_num),
   load_file_fail_fast.2.2.1 exEnvMissing "b" 2 true false (some true) [] true ⟨none, []⟩
      (by norm_num) rfl,
   load_file_fail_fast.2.2.2 exEnvUnreadable "c" 2 true false (some true) [] true ⟨none, []⟩
      (by norm_num) rfl rfl⟩

/-- Claim C7: with `use_cache=True`, `recompute_cache=False` and an existing
cache entry whose stored parameter mapping differs from the merged
parameters of the call, `load_file` fails with the cache-parameter-mismatch
error carrying both parameter sets (requested first, cached second), and no
scape is returned. -/
theorem cache_mismatch_error {S : Type} (env : Env S) (p : String) (n : Int)
    (af : Option Bool) (ext : List String) (td : Bool) (kw : KwArgs)
    (pdc : S) (ck : Params)
    (hn : 1 ≤ n) (hf : env.isfile p = true) (hr : env.readable p = true)
    (hc : env.cache (get_cache_file_path p n) = some (pdc, ck))
    (hne : ck ≠ mergeDefaults kw) :
    load_file env (some p) n true false af ext td kw
      = .error (.cacheParameterMismatch (mergeDefaults kw) ck) := by
  have hn' : ¬ (n < 1) := by omega
  simp [load_file, hn', hf, hr, hc, hne]

/-- Witness for claim C7: a cached `normalise=False` entry against a call
whose merged parameters default `normalise` to `True`. -/
theorem cache_mismatch_error_witness :
    load_file exEnvMismatch (some "a") 3 true false (some true) [] true ⟨none, []⟩
      = .error (.cacheParameterMismatch ⟨true, []⟩ ⟨false, []⟩) :=
  cache_mismatch_error exEnvMismatch "a" 3 (some true) [] true ⟨none, []⟩ 5 ⟨false, []⟩
    (by norm_num) rfl rfl rfl (by decide)

/-- Claim C10: the second `os.path.isfile` test (the "should be a file not a
directory" branch) is unreachable: `load_file` never returns that error,
because any call reaching it has already passed the identical first check. -/
theorem not_a_directory_unreachable {S : Type} (env : Env S) (fp : Option String)
    (n : Int) (uc rc : Bool) (af : Option Bool) (ext : List String) (td : Bool)
    (kw : KwArgs) :
    load_file env fp n uc rc af ext td kw ≠ .error .notAFile := by
  by_cases hn : n < 1
  · simp [load_file, hn]
  cases fp with
  | none => simp [load_file, hn]
  | some p =>
    cases hfile : env.isfile p with
    | false => simp [load_file, hn, hfile]
    | true =>
      cases hread : env.readable p with
      | false => simp [load_file, hn, hfile, hread]
      | true =>
        by_cases huc : (uc && !rc) = true
        · simp only [load_file, hn, hfile, hread, huc]
          cases hc : env.cache (get_cache_file_path p n) with
          | none => simp
          | some v =>
            obtain ⟨pdc, ck⟩ := v
            by_cases hk : ck = mergeDefaults kw
            · simp [hk]
            · simp [hk]
        · simp [load_file, hn, hfile, hread, huc]

/-- Witness for claim C10 at a concrete call. -/
theorem not_a_directory_unreachable_witness :
    load_file exEnvFresh (some "a") 2 true false (some true) [] true ⟨none, []⟩
      ≠ .error .notAFile :=
  not_a_directory_unreachable exEnvFresh (some "a") 2 true false (some true) [] true
    ⟨none, []⟩

theorem routeCompute_cache_irrel {S : Type} (env : Env S)
    (c : String → Option (S × Params)) (n : Int) (path : String) (af : Option Bool)
    (ext : List String) (kwargs : Params) :
    routeCompute { env with cache := c } n path af ext kwargs
      = routeCompute env n path af ext kwargs := by
  unfold routeCompute
  cases af <;> rfl

theorem finalReorder_cache_irrel {S : Type} (env : Env S)
    (c : String → Option (S × Params)) (td : Bool) (pdc : S) :
    finalReorder { env with cache := c } td pdc = finalReorder env td pdc := by
  unfold finalReorder
  cases td <;> rfl

theorem updateCache_overwrite {S : Type} (c : String → Option (S × Params)) (key : String)
    (v : S × Params) : updateCache (updateCache c key v) key v = updateCache c key v := by
  funext s
  unfold updateCache
  by_cases h : s = key <;> simp [h]

theorem updateCache_self {S : Type} (c : String → Option (S × Params)) (key : String)
    (v : S × Params) : updateCache c key v key = some v := by
  simp [updateCache]

/-- Claim C8: a `load_file` call with `use_cache=True` followed immediately
by a second call with identical parameters, run against the cache state the
first call produced, returns the same result and the same cache state. -/
theorem cache_round_trip {S : Type} (env : Env S) (fp : Option String) (n : Int)
    (rc : Bool) (af : Option Bool) (ext : List String) (td : Bool) (kw : KwArgs)
    (out : S × (String → Option (S × Params)))
    (h : load_file env fp n true rc af ext td kw = .ok out) :
    load_file { env with cache := out.2 } fp n true rc af ext td kw
      = .ok (out.1, out.2) := by
  by_cases hn : n < 1
  · simp [load_file, hn] at h
  cases fp with
  | none => simp [load_file, hn] at h
  | some p =>
    cases hfile : env.isfile p with
    | false => simp [load_file, hn, hfile] at h
    | true =>
      cases hread : env.readable p with
      | false => simp [load_file, hn, hfile, hread] at h
      | true =>
        cases rc with
        | true =>
          simp [load_file, hn, hfile, hread] at h ⊢
          obtain rfl := h
          simp [routeCompute_cache_irrel, finalReorder_cache_irrel, updateCache_overwrite]
        | false =>
          cases hc : env.cache (get_cache_file_path p n) with
          | none =>
            simp [load_file, hn, hfile, hread, hc] at h ⊢
            obtain rfl := h
            simp [routeCompute_cache_irrel, finalReorder_cache_irrel, updateCache_self,
              updateCache_overwrite]
          | some v =>
            obtain ⟨pdc, ck⟩ := v
            by_cases hk : ck = mergeDefaults kw
            · subst hk
              simp [load_file, hn, hfile, hread, hc] at h ⊢
              obtain rfl := h
              simp [hc]
            · simp [load_file, hn, hfile, hread, hc, hk] at h

/-- Witness for claim C8: a fresh-cache first call computes, stores and
returns; the theorem then yields the second call's identical result. -/
theorem cache_round_trip_witness :
    load_file
      { exEnvFresh with
        cache := updateCache exEnvFresh.cache (get_cache_file_path "a" 2) (7, ⟨true, []⟩) }
      (some "a") 2 true false (some true) [] true ⟨none, []⟩
      = .ok (8, updateCache exEnvFresh.cache (get_cache_file_path "a" 2) (7, ⟨true, []⟩)) :=
  cache_round_trip exEnvFresh (some "a") 2 false (some true) [] true ⟨none, []⟩
    (8, updateCache exEnvFresh.cache (get_cache_file_path "a" 2) (7, ⟨true, []⟩)) rfl

/-! ### Corpus loader -/

theorem eq_of_perm_of_sorted_antisymm {β : Type} {r : β → β → Prop} :
    ∀ {l₁ l₂ : List β}, (∀ a ∈ l₁, ∀ b ∈ l₁, r a b → r b a → a = b) →
      List.Perm l₁ l₂ → l₁.Sorted r → l₂.Sorted r → l₁ = l₂ := by
  intro l₁
  induction l₁ with
  | nil =>
    intro l₂ _ hp _ _
    exact hp.nil_eq
  | cons a t₁ ih =>
    intro l₂ hanti hp hs₁ hs₂
    cases l₂ with
    | nil => simpa using hp.length_eq
    | cons b t₂ =>
      have hbmem : b ∈ a :: t₁ := hp.symm.subset (List.mem_cons_self b t₂)
      have hamem : a ∈ b :: t₂ := hp.subset (List.mem_cons_self a t₁)
      have hab : a = b := by
        rcases List.mem_cons.mp hbmem with h | h
        · exact h.symm
        rcases List.mem_cons.mp hamem with h' | h'
        · exact h'
        have hr1 : r a b := (List.sorted_cons.mp hs₁).1 b h
        have hr2 : r b a := (List.sorted_cons.mp hs₂).1 a h'
        exact hanti a (List.mem_cons_self a t₁) b (List.mem_cons_of_mem a h) hr1 hr2
      subst hab
      have hp' : List.Perm t₁ t₂ := hp.cons_inv
      have hanti' : ∀ x ∈ t₁, ∀ y ∈ t₁, r x y → r y x → x = y :=
        fun x hx y hy => hanti x (List.mem_cons_of_mem a hx) y (List.mem_cons_of_mem a hy)
      rw [ih hanti' hp' (List.sorted_cons.mp hs₁).2 (List.sorted_cons.mp hs₂).2]

/-- Claim C1 (amended): for a fixed file set and loader, `load_corpus` with
`parallel=True` — modelled as the tagged results arriving in an arbitrary
permutation of the submitted tasks — returns the same stacked tensor and the
same ordered path list as `parallel=False`, provided `sort_func` assigns
distinct keys to distinct file paths of the corpus.  (Python's `sorted` is
stable, so tied keys are broken by arrival order, which differs between the
two modes; see the counterexample.) -/
theorem load_corpus_parallel_eq_seq {α : Type} (f : String → α)
    (file_paths : List String) (sort_func : String → Int)
    (delivered : List (String × α))
    (hinj : ∀ p ∈ file_paths, ∀ q ∈ file_paths, sort_func p = sort_func q → p = q)
    (hperm : List.Perm delivered (tagScapes f file_paths)) :
    load_corpus_par delivered sort_func = load_corpus_seq f file_paths sort_func := by
  haveI : IsTotal (String × α) (keyLE sort_func) := ⟨fun a b => Int.le_total _ _⟩
  haveI : IsTrans (String × α) (keyLE sort_func) :=
    ⟨fun a b c hab hbc => Int.le_trans hab hbc⟩
  suffices h : pySorted sort_func delivered = pySorted sort_func (tagScapes f file_paths) by
    simp [load_corpus_par, load_corpus_seq, h]
  apply eq_of_perm_of_sorted_antisymm (r := keyLE sort_func)
  · intro a ha b hb hab hba
    have ha' : a ∈ tagScapes f file_paths := by
      rw [pySorted, List.mem_insertionSort] at ha
      exact hperm.subset ha
    have hb' : b ∈ tagScapes f file_paths := by
      rw [pySorted, List.mem_insertionSort] at hb
      exact hperm.subset hb
    obtain ⟨p, hp, rfl⟩ := List.mem_map.mp ha'
    obtain ⟨q, hq, rfl⟩ := List.mem_map.mp hb'
    have hpq : p = q := hinj p hp q hq (le_antisymm hab hba)
    subst hpq
    rfl
  · exact (List.perm_insertionSort _ _).trans
      (hperm.trans (List.perm_insertionSort _ _).symm)
  · exact List.sorted_insertionSort _ _
  · exact List.sorted_insertionSort _ _

/-- Witness for the amended claim C1: two files with distinct path lengths as
keys, delivered in swapped order, sort back to the sequential result. -/
theorem load_corpus_parallel_eq_seq_witness :
    load_corpus_par exDelivered (fun s => (s.length : Int))
      = load_corpus_seq (fun p => p.length) exPaths (fun s => (s.length : Int)) :=
  load_corpus_parallel_eq_seq (fun p => p.length) exPaths (fun s => (s.length : Int))
    exDelivered (by decide) (by decide)

/-- Claim C1 counterexample: with the constant sort key, the same two files
delivered in swapped (completion) order produce a different tensor and path
ordering in parallel mode than in sequential mode, because the stable sort
breaks ties by arrival order. -/
theorem corpus_order_counterexample :
    List.Perm exDelivered (tagScapes (fun p => p.length) exPaths)
    ∧ load_corpus_par exDelivered (fun _ => 0)
      ≠ load_corpus_seq (fun p => p.length) exPaths (fun _ => 0) := by
  constructor
  · decide
  · decide

end MusicFlower
